import Mathlib

/-!
# Verification of the question-generation service (`src/app.py`)

Shallow embedding of the pure logic of `app.py`:

* Python strings are modelled as `List Char`; `str.strip()` becomes `pyStrip`
  (dropping whitespace from both ends), `text.split('. ')` becomes
  `splitSentences`, `text.split(sep)` (of which the code only uses parts 0
  and 1) becomes `splitFirst`, `str.replace(sep, "")` becomes `removeAll`,
  and `str.split("\n")` becomes `splitNl`.
* `chunk_text`, `semantic_search`, `parse_questions`, `generate_questions`
  and `initialize_vector_db` are translated line by line from `app.py`.
* The external collaborators (the sentence-transformer `embed_model.encode`
  and the Gemini call) are opaque: they appear as function parameters, the
  fallible ones returning `Except`.
* Embedding vectors are modelled over `ℚ`.  `np.linalg.norm` is the square
  root of a sum of squares; since `Real.sqrt` is monotone, ranking rows by
  the norm is the same as ranking them by the squared norm, so `sqDist`
  keeps the square and stays executable.
-/

/-! ## Chunking (`chunk_text`, app.py lines 45-63) -/

/-- Python `str.strip()`: remove whitespace from both ends. -/
def pyStrip (l : List Char) : List Char :=
  ((l.dropWhile Char.isWhitespace).reverse.dropWhile Char.isWhitespace).reverse

/-- Python `text.split('. ')`, scanning left to right for non-overlapping
occurrences of the two-character separator.  `acc` holds the reversed
characters of the piece being accumulated. -/
def splitSentences : List Char → List Char → List (List Char)
  | acc, [] => [acc.reverse]
  | acc, [c] => [(c :: acc).reverse]
  | acc, c :: d :: rest =>
    if c = '.' ∧ d = ' ' then acc.reverse :: splitSentences [] rest
    else splitSentences (c :: acc) (d :: rest)

/-- The sentence list of a text, `text.split('. ')`. -/
def sentencesOf (text : List Char) : List (List Char) :=
  splitSentences [] text

/-- The placeholder chunk returned for an empty transcript. -/
def sampleEmpty : List Char := "Sample text for empty transcript".toList

/-- One iteration of the `for sentence in sentences` loop of `chunk_text`:
the state is `(chunks, current_chunk)`. -/
def chunkStep (chunk_size : Nat) (st : List (List Char) × List Char)
    (sentence : List Char) : List (List Char) × List Char :=
  if st.2.length + sentence.length ≤ chunk_size then
    (st.1, st.2 ++ sentence ++ ['.', ' '])
  else
    (st.1 ++ [pyStrip st.2], sentence ++ ['.', ' '])

/-- The trailing `if current_chunk: chunks.append(current_chunk.strip())`
of `chunk_text`. -/
def chunkFinish (st : List (List Char) × List Char) : List (List Char) :=
  if st.2 = [] then st.1 else st.1 ++ [pyStrip st.2]

/-- `chunk_text(text, chunk_size=500)` from app.py. -/
def chunk_text (text : List Char) (chunk_size : Nat) : List (List Char) :=
  if text = [] then [sampleEmpty]
  else chunkFinish ((sentencesOf text).foldl (chunkStep chunk_size) ([], []))

example : sentencesOf "a. ab".toList = ["a".toList, "ab".toList] := by decide
example : chunk_text "a. ab".toList 5 = ["a. ab.".toList] := by decide
example : chunk_text "abcdef".toList 3 = [[], "abcdef.".toList] := by decide
example : chunk_text [] 500 = [sampleEmpty] := by decide

/-! ## Lemmas about `pyStrip` and the chunking fold -/

lemma dropWhile_ws_cons_true {c : Char} (h : c.isWhitespace = true) (l : List Char) :
    (c :: l).dropWhile Char.isWhitespace = l.dropWhile Char.isWhitespace := by
  simp [List.dropWhile_cons, h]

lemma dropWhile_ws_cons_false {c : Char} (h : c.isWhitespace = false) (l : List Char) :
    (c :: l).dropWhile Char.isWhitespace = c :: l := by
  simp [List.dropWhile_cons, h]

/-- Stripping a buffer of the form `z ++ ". "` keeps everything except the
leading whitespace of `z` and the final space. -/
lemma pyStrip_append_sep (z : List Char) :
    pyStrip (z ++ ['.', ' ']) = z.dropWhile Char.isWhitespace ++ ['.'] := by
  unfold pyStrip
  have h1 : (z ++ ['.', ' ']).dropWhile Char.isWhitespace
      = z.dropWhile Char.isWhitespace ++ ['.', ' '] := by
    rw [List.dropWhile_append]
    by_cases h : (z.dropWhile Char.isWhitespace).isEmpty
    · rw [if_pos h, dropWhile_ws_cons_false (by decide)]
      rw [List.isEmpty_iff] at h
      rw [h, List.nil_append]
    · rw [if_neg h]
  rw [h1, List.reverse_append]
  have h2 : (['.', ' '] : List Char).reverse = ' ' :: ['.'] := rfl
  rw [h2, List.cons_append, dropWhile_ws_cons_true (by decide),
    List.singleton_append, dropWhile_ws_cons_false (by decide),
    List.reverse_cons, List.reverse_reverse]

/-- The shape invariant of the running buffer `current_chunk`: it is empty
or consists of sentences each followed by `". "`, summarised by its prefix
`z`, which either respects the budget or is a single sentence. -/
def BufOk (size : Nat) (sents : List (List Char)) (cur : List Char) : Prop :=
  cur = [] ∨ ∃ z, cur = z ++ ['.', ' '] ∧ (z.length ≤ size ∨ z ∈ sents)

/-- What the amended claim C3 guarantees of an individual chunk. -/
def GoodChunk (size : Nat) (sents : List (List Char)) (c : List Char) : Prop :=
  c.length ≤ size + 1 ∨
    ∃ s ∈ sents, size < s.length ∧ c = s.dropWhile Char.isWhitespace ++ ['.']

lemma emit_good {size : Nat} {sents : List (List Char)} {cur : List Char}
    (h : BufOk size sents cur) : GoodChunk size sents (pyStrip cur) := by
  rcases h with rfl | ⟨z, rfl, hz⟩
  · left; simp [pyStrip]
  · rw [pyStrip_append_sep]
    have hdw : (z.dropWhile Char.isWhitespace).length ≤ z.length :=
      (List.dropWhile_sublist Char.isWhitespace).length_le
  -- the chunk has the length of the trimmed `z` plus the final period
    rcases hz with hle | hmem
    · left
      simp only [List.length_append, List.length_cons, List.length_nil]
      omega
    · by_cases hlen : (z.dropWhile Char.isWhitespace ++ ['.']).length ≤ size + 1
      · left; exact hlen
      · right
        refine ⟨z, hmem, ?_, rfl⟩
        simp only [List.length_append, List.length_cons, List.length_nil] at hlen
        omega

lemma chunkFold_good (size : Nat) (sents : List (List Char)) :
    ∀ (todo : List (List Char)) (st : List (List Char) × List Char),
      (∀ s ∈ todo, s ∈ sents) →
      (∀ c ∈ st.1, GoodChunk size sents c) →
      BufOk size sents st.2 →
      (∀ c ∈ (todo.foldl (chunkStep size) st).1, GoodChunk size sents c) ∧
        BufOk size sents (todo.foldl (chunkStep size) st).2
  | [], _, _, h1, h2 => ⟨h1, h2⟩
  | s :: todo, st, hmem, h1, h2 => by
    rw [List.foldl_cons]
    refine chunkFold_good size sents todo _
      (fun x hx => hmem x (List.mem_cons_of_mem _ hx)) ?_ ?_
    · intro c hc
      unfold chunkStep at hc
      by_cases hif : st.2.length + s.length ≤ size
      · rw [if_pos hif] at hc; exact h1 c hc
      · rw [if_neg hif] at hc
        simp only [List.mem_append, List.mem_singleton] at hc
        rcases hc with hc | rfl
        · exact h1 c hc
        · exact emit_good h2
    · unfold chunkStep
      by_cases hif : st.2.length + s.length ≤ size
      · rw [if_pos hif]
        right
        exact ⟨st.2 ++ s, by simp [List.append_assoc], Or.inl (by
          simpa only [List.length_append] using hif)⟩
      · rw [if_neg hif]
        right
        exact ⟨s, rfl, Or.inr (hmem s (List.mem_cons_self _ _))⟩

lemma emit_ne_nil {cur : List Char} (h : ∃ z, cur = z ++ ['.', ' ']) :
    pyStrip cur ≠ [] := by
  rcases h with ⟨z, rfl⟩
  rw [pyStrip_append_sep]
  simp

/-- During the fold, only the very first emitted chunk can be empty: after
one chunk exists, the buffer is never empty again. -/
lemma chunkFold_tail_ne (size : Nat) :
    ∀ (todo : List (List Char)) (st : List (List Char) × List Char),
      (∀ c ∈ st.1.drop 1, c ≠ []) →
      (st.1 = [] ∨ st.2 ≠ []) →
      (st.2 = [] ∨ ∃ z, st.2 = z ++ ['.', ' ']) →
      (∀ c ∈ (todo.foldl (chunkStep size) st).1.drop 1, c ≠ []) ∧
        ((todo.foldl (chunkStep size) st).1 = [] ∨
          (todo.foldl (chunkStep size) st).2 ≠ []) ∧
        ((todo.foldl (chunkStep size) st).2 = [] ∨
          ∃ z, (todo.foldl (chunkStep size) st).2 = z ++ ['.', ' '])
  | [], _, h1, h2, h3 => ⟨h1, h2, h3⟩
  | s :: todo, st, h1, h2, h3 => by
    rw [List.foldl_cons]
    refine chunkFold_tail_ne size todo _ ?_ ?_ ?_
    · intro c hc
      unfold chunkStep at hc
      by_cases hif : st.2.length + s.length ≤ size
      · rw [if_pos hif] at hc; exact h1 c hc
      · rw [if_neg hif] at hc
        rcases hst : st.1 with _ | ⟨a, t⟩
      -- first flush: the single emitted chunk is not in the tail
        · rw [hst] at hc
          simp only [List.nil_append] at hc
          simp at hc
        · rw [hst] at hc
          have hcur : st.2 ≠ [] := by
            rcases h2 with h2 | h2
            · rw [hst] at h2; exact absurd h2 (by simp)
            · exact h2
          have hz : ∃ z, st.2 = z ++ ['.', ' '] := by
            rcases h3 with h3 | h3
            · exact absurd h3 hcur
            · exact h3
          have hdrop : ((a :: t) ++ [pyStrip st.2]).drop 1 = t ++ [pyStrip st.2] := by
            simp
          rw [hdrop] at hc
          rcases List.mem_append.mp hc with hc | hc
          · exact h1 c (by rw [hst]; simpa using hc)
          · rw [List.mem_singleton] at hc
            subst hc
            exact emit_ne_nil hz
    · unfold chunkStep
      by_cases hif : st.2.length + s.length ≤ size
      · rw [if_pos hif]
        rcases h2 with h2 | h2
        · left; exact h2
        · right; simp [h2]
      · rw [if_neg hif]
        right; simp
    · unfold chunkStep
      by_cases hif : st.2.length + s.length ≤ size
      · rw [if_pos hif]
        right
        exact ⟨st.2 ++ s, by simp [List.append_assoc]⟩
      · rw [if_neg hif]
        right
        exact ⟨s, rfl⟩

/-- Once the buffer is non-empty and well-shaped and all previous chunks are
non-empty, every chunk stays non-empty. -/
lemma chunkFold_all_ne (size : Nat) :
    ∀ (todo : List (List Char)) (st : List (List Char) × List Char),
      (∀ c ∈ st.1, c ≠ []) →
      (∃ z, st.2 = z ++ ['.', ' ']) →
      (∀ c ∈ (todo.foldl (chunkStep size) st).1, c ≠ []) ∧
        ∃ z, (todo.foldl (chunkStep size) st).2 = z ++ ['.', ' ']
  | [], _, h1, h2 => ⟨h1, h2⟩
  | s :: todo, st, h1, h2 => by
    rw [List.foldl_cons]
    refine chunkFold_all_ne size todo _ ?_ ?_
    · intro c hc
      unfold chunkStep at hc
      by_cases hif : st.2.length + s.length ≤ size
      · rw [if_pos hif] at hc; exact h1 c hc
      · rw [if_neg hif] at hc
        rcases List.mem_append.mp hc with hc | hc
        · exact h1 c hc
        · rw [List.mem_singleton] at hc
          subst hc
          exact emit_ne_nil h2
    · unfold chunkStep
      by_cases hif : st.2.length + s.length ≤ size
      · rw [if_pos hif]
        exact ⟨st.2 ++ s, by simp [List.append_assoc]⟩
      · rw [if_neg hif]
        exact ⟨s, rfl⟩

lemma splitSentences_ne_nil : ∀ (acc l : List Char), splitSentences acc l ≠ []
  | _, [] => by simp [splitSentences]
  | _, [c] => by simp [splitSentences]
  | acc, c :: d :: rest => by
    by_cases h : c = '.' ∧ d = ' '
    · simp [splitSentences, h]
    · simp only [splitSentences, if_neg h]
      exact splitSentences_ne_nil (c :: acc) (d :: rest)

/-- Once at least one sentence has been processed, the running buffer is
non-empty (it always ends with `". "`). -/
lemma chunkFold_cur_ne (size : Nat) :
    ∀ (todo : List (List Char)) (st : List (List Char) × List Char),
      (st.2 ≠ [] ∨ todo ≠ []) → (todo.foldl (chunkStep size) st).2 ≠ []
  | [], _, h => by
    rcases h with h | h
    · simpa using h
    · exact absurd rfl h
  | s :: todo, st, _ => by
    rw [List.foldl_cons]
    refine chunkFold_cur_ne size todo _ (Or.inl ?_)
    unfold chunkStep
    by_cases hif : st.2.length + s.length ≤ size
    · rw [if_pos hif]; simp
    · rw [if_neg hif]; simp

/-- `chunk_text` never returns an empty list of chunks. -/
lemma chunk_text_ne_nil (text : List Char) (size : Nat) :
    chunk_text text size ≠ [] := by
  unfold chunk_text
  by_cases h : text = []
  · rw [if_pos h]; simp
  · rw [if_neg h]
    have hcur := chunkFold_cur_ne size (sentencesOf text) ([], [])
      (Or.inr (splitSentences_ne_nil [] text))
    unfold chunkFinish
    rw [if_neg hcur]
    simp

/-! ## Claims C3, C4, C5 about `chunk_text` -/

/-- A two-sentence text whose sentences both fit the budget but whose single
chunk exceeds it: 248 characters, then `". "`, then 250 characters. -/
def cexText3 : List Char :=
  List.replicate 248 'a' ++ '.' :: ' ' :: List.replicate 250 'b'

set_option maxRecDepth 8000 in
/-- Counterexample to claim C3 as stated: with the default budget 500, every
sentence of `cexText3` has length at most 500, yet `chunk_text` produces a
chunk of length 501 (the `len(current_chunk) + len(sentence) <= chunk_size`
test ignores the two separator characters appended afterwards). -/
theorem chunk_text_budget_cex :
    (∀ s ∈ sentencesOf cexText3, s.length ≤ 500) ∧
      ∃ c ∈ chunk_text cexText3 500, 500 < c.length := by decide

/-- Claim C3 (amended): on a non-empty text, every chunk has length at most
`chunk_size + 1`, except a chunk consisting of a single sentence whose own
length exceeds the budget; such a sentence is never truncated — the chunk is
the whole sentence (left-trimmed) with the separator period appended. -/
theorem chunk_text_soft_budget (text : List Char) (size : Nat) (h : text ≠ []) :
    ∀ c ∈ chunk_text text size,
      c.length ≤ size + 1 ∨
        ∃ s ∈ sentencesOf text, size < s.length ∧
          c = s.dropWhile Char.isWhitespace ++ ['.'] := by
  intro c hc
  have hmain := chunkFold_good size (sentencesOf text) (sentencesOf text)
    ([], []) (fun s hs => hs) (by simp) (Or.inl rfl)
  unfold chunk_text at hc
  rw [if_neg h] at hc
  unfold chunkFinish at hc
  by_cases hfin : ((sentencesOf text).foldl (chunkStep size) ([], [])).2 = []
  · rw [if_pos hfin] at hc
    exact hmain.1 c hc
  · rw [if_neg hfin] at hc
    rcases List.mem_append.mp hc with hc | hc
    · exact hmain.1 c hc
    · rw [List.mem_singleton] at hc
      subst hc
      exact emit_good hmain.2

theorem chunk_text_soft_budget_witness :
    "ab".toList ≠ [] ∧
      ∀ c ∈ chunk_text "ab".toList 500,
        c.length ≤ 500 + 1 ∨
          ∃ s ∈ sentencesOf "ab".toList, 500 < s.length ∧
            c = s.dropWhile Char.isWhitespace ++ ['.'] :=
  ⟨by decide, chunk_text_soft_budget "ab".toList 500 (by decide)⟩

/-- Counterexample to claim C4 as stated: on the non-empty text `"abcdef"`
with budget 3, the first sentence does not fit the budget, so the initial
empty buffer is flushed and an empty chunk is returned. -/
theorem chunk_text_empty_chunk_cex :
    "abcdef".toList ≠ [] ∧ [] ∈ chunk_text "abcdef".toList 3 := by decide

/-- Claim C4 (amended): on a non-empty text no chunk is empty, except
possibly the first one; and when the first sentence fits the budget no chunk
at all is empty. -/
theorem chunk_text_chunks_nonempty (text : List Char) (size : Nat)
    (h : text ≠ []) :
    (∀ c ∈ (chunk_text text size).drop 1, c ≠ []) ∧
      ∀ s0 rest, sentencesOf text = s0 :: rest → s0.length ≤ size →
        ∀ c ∈ chunk_text text size, c ≠ [] := by
  constructor
  · have hmain := chunkFold_tail_ne size (sentencesOf text) ([], [])
      (by simp) (Or.inl rfl) (Or.inl rfl)
    obtain ⟨ha, _, hsep⟩ := hmain
    intro c hc
    unfold chunk_text at hc
    rw [if_neg h] at hc
    unfold chunkFinish at hc
    by_cases hfin : ((sentencesOf text).foldl (chunkStep size) ([], [])).2 = []
    · rw [if_pos hfin] at hc
      exact ha c hc
    · rw [if_neg hfin] at hc
      have hz : ∃ z, ((sentencesOf text).foldl (chunkStep size) ([], [])).2
          = z ++ ['.', ' '] := by
        rcases hsep with hsep | hsep
        · exact absurd hsep hfin
        · exact hsep
      rcases hone : ((sentencesOf text).foldl (chunkStep size) ([], [])).1
        with _ | ⟨a, t⟩
      · rw [hone] at hc
        simp at hc
      · rw [hone] at hc
        have hdrop : ((a :: t) ++
            [pyStrip ((sentencesOf text).foldl (chunkStep size) ([], [])).2]).drop 1
            = t ++ [pyStrip ((sentencesOf text).foldl (chunkStep size) ([], [])).2] := by
          simp
        rw [hdrop] at hc
        rcases List.mem_append.mp hc with hc | hc
        · exact ha c (by rw [hone]; simpa using hc)
        · rw [List.mem_singleton] at hc
          subst hc
          exact emit_ne_nil hz
  · intro s0 rest hs hfit c hc
    unfold chunk_text at hc
    rw [if_neg h, hs, List.foldl_cons] at hc
    have hstep : chunkStep size ([], []) s0 = ([], [] ++ s0 ++ ['.', ' ']) := by
      unfold chunkStep
      rw [if_pos (by simpa using hfit)]
    rw [hstep] at hc
    have hmain := chunkFold_all_ne size rest ([], [] ++ s0 ++ ['.', ' '])
      (by simp) ⟨s0, by simp⟩
    obtain ⟨ha, hz⟩ := hmain
    have hfin : (rest.foldl (chunkStep size) ([], [] ++ s0 ++ ['.', ' '])).2 ≠ [] := by
      rcases hz with ⟨z, hz⟩
      rw [hz]
      simp
    unfold chunkFinish at hc
    rw [if_neg hfin] at hc
    rcases List.mem_append.mp hc with hc | hc
    · exact ha c hc
    · rw [List.mem_singleton] at hc
      subst hc
      exact emit_ne_nil hz

theorem chunk_text_chunks_nonempty_witness :
    "a. b".toList ≠ [] ∧
      ((∀ c ∈ (chunk_text "a. b".toList 500).drop 1, c ≠ []) ∧
        ∀ s0 rest, sentencesOf "a. b".toList = s0 :: rest → s0.length ≤ 500 →
          ∀ c ∈ chunk_text "a. b".toList 500, c ≠ []) :=
  ⟨by decide, chunk_text_chunks_nonempty "a. b".toList 500 (by decide)⟩

/-- Claim C5: for the empty input text, `chunk_text` returns exactly the
one-element placeholder list, never an empty sequence. -/
theorem chunk_text_empty_input (size : Nat) :
    chunk_text [] size = [sampleEmpty] ∧ (chunk_text [] size).length = 1 := by
  constructor <;> simp [chunk_text]

/-! ## Semantic search (`semantic_search`, app.py lines 66-79)

`np.linalg.norm(embeddings - query_embedding, axis=1)` computes the
Euclidean distance of every row to the query.  We keep the squared distance
(`sqDist`): the square root is strictly monotone, so the ranking by `sqDist`
is exactly the ranking by the Euclidean norm, and a distance is `0` iff its
square is `0`.  `np.argsort` returns index positions ordered by ascending
distance.  Its tie order is NOT determined by the program: the call uses the
default `kind='quicksort'`, which numpy documents as not stable, so the
order of equal distances is implementation-defined.  An executable model
must still pick some tie order; `argsort` below picks the stable one
(ties in original index order).  The theorems proved about it rely only on
properties shared by every correct argsort — it is a permutation of
`0, …, n-1`, it is sorted by distance, and a strictly unique minimum comes
first — never on the modelled tie order. -/

/-- Squared Euclidean distance between two vectors (rows of equal length;
`numpy` broadcasting requires equal dimensions).  The entries live in an
arbitrary linear ordered commutative ring `K` (the floats of the program);
concrete witnesses instantiate `K := ℤ`. -/
def sqDist {K : Type} [LinearOrderedCommRing K] (a b : List K) : K :=
  ((a.zip b).map (fun p => (p.1 - p.2) ^ 2)).sum

/-- The distance of row `i`; out-of-range indices never occur below. -/
def keyAt {K : Type} [LinearOrderedCommRing K] (d : List K) (i : Nat) : K :=
  d.getD i 0

/-- The comparison order of the `np.argsort` model: ascending distance, with
the implementation-defined tie order instantiated as the original index
order (see the section comment above; no theorem depends on the tie
clause). -/
def argLe {K : Type} [LinearOrderedCommRing K] (d : List K) (i j : Nat) : Prop :=
  keyAt d i < keyAt d j ∨ (keyAt d i = keyAt d j ∧ i ≤ j)

instance {K : Type} [LinearOrderedCommRing K] (d : List K) :
    DecidableRel (argLe d) := fun _ _ => by
  unfold argLe; infer_instance

instance {K : Type} [LinearOrderedCommRing K] (d : List K) :
    IsTotal Nat (argLe d) := by
  constructor
  intro i j
  rcases lt_trichotomy (keyAt d i) (keyAt d j) with h | h | h
  · exact Or.inl (Or.inl h)
  · rcases Nat.le_total i j with hij | hij
    · exact Or.inl (Or.inr ⟨h, hij⟩)
    · exact Or.inr (Or.inr ⟨h.symm, hij⟩)
  · exact Or.inr (Or.inl h)

instance {K : Type} [LinearOrderedCommRing K] (d : List K) :
    IsTrans Nat (argLe d) := by
  constructor
  intro i j k hij hjk
  rcases hij with hij | ⟨hij, hij2⟩ <;> rcases hjk with hjk | ⟨hjk, hjk2⟩
  · exact Or.inl (hij.trans hjk)
  · exact Or.inl (hjk ▸ hij)
  · exact Or.inl (hij ▸ hjk)
  · exact Or.inr ⟨hij.trans hjk, hij2.trans hjk2⟩

/-- `np.argsort(distances)`: a permutation of `0, …, n-1` sorted by
ascending distance; the tie order of the program is implementation-defined
(default quicksort, documented not stable), here instantiated as the stable
one so the definition is executable. -/
def argsort {K : Type} [LinearOrderedCommRing K] (d : List K) : List Nat :=
  List.insertionSort (argLe d) (List.range d.length)

/-- `[chunks[i] for i in top_indices]`: Python list indexing raises on an
out-of-range index, modelled by `none`. -/
def getChunks {α : Type} (chunks : List α) : List Nat → Option (List α)
  | [] => some []
  | i :: is =>
    match chunks.get? i, getChunks chunks is with
    | some c, some cs => some (c :: cs)
    | _, _ => none

/-- `semantic_search(query_text, chunks, embeddings, top_k=1)` from app.py.
The external `embed_model.encode` is the opaque parameter `encode`. -/
def semantic_search {K α : Type} [LinearOrderedCommRing K]
    (encode : List Char → List K) (query_text : List Char) (chunks : List α)
    (embeddings : List (List K)) (top_k : Nat) : Option (List α) :=
  let query_embedding := encode query_text
  let distances := embeddings.map (fun e => sqDist e query_embedding)
  let top_indices := (argsort distances).take top_k
  getChunks chunks top_indices

example :
    semantic_search (fun _ => ([1, 0] : List ℤ)) [] ["far", "near", "mid"]
      [[5, 5], [1, 0], [2, 0]] 2 = some ["near", "mid"] := by decide
example :
    semantic_search (fun _ => ([1, 0] : List ℤ)) [] ["a", "b"]
      [[1, 0], [1, 0]] 5 = some ["a", "b"] := by decide

/-! ## Lemmas about `argsort`, `sqDist` and `getChunks` -/

lemma argsort_perm {K : Type} [LinearOrderedCommRing K] (d : List K) :
    List.Perm (argsort d) (List.range d.length) :=
  List.perm_insertionSort (argLe d) (List.range d.length)

lemma argsort_sorted {K : Type} [LinearOrderedCommRing K] (d : List K) :
    List.Pairwise (argLe d) (argsort d) :=
  List.sorted_insertionSort (argLe d) (List.range d.length)

lemma argsort_length {K : Type} [LinearOrderedCommRing K] (d : List K) :
    (argsort d).length = d.length := by
  rw [(argsort_perm d).length_eq, List.length_range]

lemma argsort_nodup {K : Type} [LinearOrderedCommRing K] (d : List K) :
    (argsort d).Nodup :=
  ((argsort_perm d).nodup_iff).mpr (List.nodup_range _)

lemma mem_argsort {K : Type} [LinearOrderedCommRing K] (d : List K) (i : Nat) :
    i ∈ argsort d ↔ i < d.length := by
  rw [(argsort_perm d).mem_iff, List.mem_range]

/-- When one index has strictly minimal distance, it is the head of the
argsort. -/
lemma argsort_head_of_unique_min {K : Type} [LinearOrderedCommRing K]
    {d : List K} {i : Nat} (hi : i < d.length)
    (hmin : ∀ j, j < d.length → j ≠ i → keyAt d i < keyAt d j) :
    ∃ t, argsort d = i :: t := by
  have hlen : (argsort d).length = d.length := argsort_length d
  have hne : argsort d ≠ [] := by
    intro hnil
    rw [hnil] at hlen
    simp at hlen
    omega
  obtain ⟨h0, t, ht⟩ := List.exists_cons_of_ne_nil hne
  have hh0 : h0 ∈ argsort d := ht ▸ List.mem_cons_self _ _
  have hh0lt : h0 < d.length := (mem_argsort d h0).mp hh0
  have hiMem : i ∈ argsort d := (mem_argsort d i).mpr hi
  by_cases heq : h0 = i
  · exact ⟨t, by rw [ht, heq]⟩
  · exfalso
    have hit : i ∈ t := by
      rw [ht] at hiMem
      rcases List.mem_cons.mp hiMem with h | h
      · exact absurd h.symm heq
      · exact h
    have hrel : argLe d h0 i :=
      List.rel_of_sorted_cons (ht ▸ argsort_sorted d) i hit
    have hlt : keyAt d i < keyAt d h0 := hmin h0 hh0lt heq
    rcases hrel with h | ⟨h, _⟩
    · exact absurd hlt (lt_asymm h)
    · rw [h] at hlt
      exact lt_irrefl _ hlt

lemma sqDist_nonneg {K : Type} [LinearOrderedCommRing K] (a b : List K) :
    0 ≤ sqDist a b := by
  unfold sqDist
  apply List.sum_nonneg
  intro x hx
  rcases List.mem_map.mp hx with ⟨p, _, rfl⟩
  exact sq_nonneg _

lemma sqDist_self {K : Type} [LinearOrderedCommRing K] (a : List K) :
    sqDist a a = 0 := by
  induction a with
  | nil => rfl
  | cons x a ih =>
    unfold sqDist
    rw [List.zip_cons_cons, List.map_cons, List.sum_cons]
    have h0 : ((x, x).1 - (x, x).2) ^ 2 = 0 := by simp
    rw [h0, zero_add]
    exact ih

lemma sqDist_eq_zero {K : Type} [LinearOrderedCommRing K] :
    ∀ (a b : List K), a.length = b.length → sqDist a b = 0 → a = b
  | [], [], _, _ => rfl
  | [], _ :: _, h, _ => by simp at h
  | _ :: _, [], h, _ => by simp at h
  | x :: a, y :: b, h, hz => by
    have hab : a.length = b.length := by simpa using h
    have hz' : (x - y) ^ 2 + sqDist a b = 0 := by
      unfold sqDist at hz
      rw [List.zip_cons_cons, List.map_cons, List.sum_cons] at hz
      exact hz
    have h1 : (0 : K) ≤ (x - y) ^ 2 := sq_nonneg _
    have h2 : (0 : K) ≤ sqDist a b := sqDist_nonneg a b
    have hx1 : (x - y) ^ 2 = 0 := by nlinarith
    have hx2 : sqDist a b = 0 := by nlinarith
    have hxy : x = y := by
      have := (pow_eq_zero_iff (by norm_num : (2 : ℕ) ≠ 0)).mp hx1
      exact sub_eq_zero.mp this
    rw [hxy, sqDist_eq_zero a b hab hx2]

/-- The `j`-th entry of the distance row computed by `semantic_search`. -/
lemma keyAt_dists {K : Type} [LinearOrderedCommRing K] (embs : List (List K))
    (q : List K) {j : Nat} (hj : j < embs.length) :
    keyAt (embs.map (fun e => sqDist e q)) j = sqDist (embs.getD j []) q := by
  unfold keyAt
  rw [List.getD_eq_getElem _ _ (by simpa using hj), List.getElem_map,
    List.getD_eq_getElem _ _ hj]

lemma getChunks_of_bounded {α : Type} (chunks : List α) :
    ∀ idxs : List Nat, (∀ i ∈ idxs, i < chunks.length) →
      ∃ l, getChunks chunks idxs = some l ∧ l.length = idxs.length
  | [], _ => ⟨[], rfl, rfl⟩
  | i :: is, h => by
    obtain ⟨l, hl, hlen⟩ := getChunks_of_bounded chunks is
      (fun j hj => h j (List.mem_cons_of_mem _ hj))
    have hi : i < chunks.length := h i (List.mem_cons_self _ _)
    have hc : chunks.get? i = some (chunks.getD i (chunks.get ⟨i, hi⟩)) := by
      rw [List.get?_eq_getElem?, List.getElem?_eq_getElem hi,
        List.getD_eq_getElem _ _ hi]
    refine ⟨chunks.getD i (chunks.get ⟨i, hi⟩) :: l, ?_, by simp [hlen]⟩
    unfold getChunks
    rw [hc, hl]

lemma getChunks_eq_map {α : Type} [Inhabited α] (chunks : List α) :
    ∀ idxs : List Nat, (∀ i ∈ idxs, i < chunks.length) →
      getChunks chunks idxs = some (idxs.map (fun i => chunks.getD i default))
  | [], _ => rfl
  | i :: is, h => by
    have hi : i < chunks.length := h i (List.mem_cons_self _ _)
    have hrec := getChunks_eq_map chunks is
      (fun j hj => h j (List.mem_cons_of_mem _ hj))
    have hc : chunks.get? i = some (chunks.getD i default) := by
      rw [List.get?_eq_getElem?, List.getElem?_eq_getElem hi,
        List.getD_eq_getElem _ _ hi]
    unfold getChunks
    rw [hc, hrec, List.map_cons]

/-! ## Claims C1, C2 and C10 about `semantic_search` -/

/-- Claim C1: if the store holds exactly one embedding equal to the query's
embedding (a well-formed store: equal dimensions, one embedding per chunk),
`semantic_search` returns the chunk at that index as the rank-0 result, and
the distance of that embedding to the query is `0`. -/
theorem semantic_search_exact_match {K α : Type} [LinearOrderedCommRing K]
    (encode : List Char → List K) (q : List Char) (chunks : List α)
    (embs : List (List K)) (top_k i : Nat)
    (hlen : chunks.length = embs.length)
    (hdim : ∀ e ∈ embs, e.length = (encode q).length)
    (hi : i < embs.length)
    (heq : embs.getD i [] = encode q)
    (huniq : ∀ j, j < embs.length → j ≠ i → embs.getD j [] ≠ encode q)
    (htop : 0 < top_k) :
    ∃ c rest, semantic_search encode q chunks embs top_k = some (c :: rest) ∧
      chunks.get? i = some c ∧ sqDist (embs.getD i []) (encode q) = 0 := by
  have hdist0 : sqDist (embs.getD i []) (encode q) = 0 := by
    rw [heq]; exact sqDist_self _
  have hdlen : (embs.map (fun e => sqDist e (encode q))).length = embs.length :=
    List.length_map _ _
  have hmin : ∀ j, j < (embs.map (fun e => sqDist e (encode q))).length →
      j ≠ i → keyAt (embs.map (fun e => sqDist e (encode q))) i
        < keyAt (embs.map (fun e => sqDist e (encode q))) j := by
    intro j hj hji
    rw [hdlen] at hj
    rw [keyAt_dists embs (encode q) hi, keyAt_dists embs (encode q) hj, hdist0]
    have hne : embs.getD j [] ≠ encode q := huniq j hj hji
    have hnonneg := sqDist_nonneg (embs.getD j []) (encode q)
    rcases lt_or_eq_of_le hnonneg with h | h
    · exact h
    · exfalso
      apply hne
      refine sqDist_eq_zero _ _ ?_ h.symm
      exact hdim _ (List.getD_eq_getElem _ _ hj ▸ List.getElem_mem _)
  obtain ⟨t, ht⟩ := argsort_head_of_unique_min (hdlen ▸ hi) hmin
  obtain ⟨m, rfl⟩ : ∃ m, top_k = m + 1 := ⟨top_k - 1, by omega⟩
  have hic : i < chunks.length := by omega
  have hget : chunks.get? i = some (chunks.get ⟨i, hic⟩) := by
    rw [List.get?_eq_getElem?, List.getElem?_eq_getElem hic]
    simp
  have hboundt : ∀ j ∈ t.take m, j < chunks.length := by
    intro j hj
    have hjt : j ∈ t := List.mem_of_mem_take hj
    have : j ∈ argsort (embs.map (fun e => sqDist e (encode q))) := by
      rw [ht]; exact List.mem_cons_of_mem _ hjt
    have := (mem_argsort _ j).mp this
    omega
  obtain ⟨rest, hrest, _⟩ := getChunks_of_bounded chunks (t.take m) hboundt
  refine ⟨chunks.get ⟨i, hic⟩, rest, ?_, hget, hdist0⟩
  show getChunks chunks
      ((argsort (embs.map (fun e => sqDist e (encode q)))).take (m + 1))
    = some (chunks.get ⟨i, hic⟩ :: rest)
  rw [ht, List.take_succ_cons]
  unfold getChunks
  rw [hget, hrest]

theorem semantic_search_exact_match_witness :
    ∃ c rest,
      semantic_search (fun _ => ([1, 0] : List ℤ)) [] ["far", "near"]
        [[3, 4], [1, 0]] 1 = some (c :: rest) ∧
        (["far", "near"].get? 1 = some c) ∧
        sqDist (([[3, 4], [1, 0]] : List (List ℤ)).getD 1 []) [1, 0] = 0 :=
  semantic_search_exact_match (fun _ => ([1, 0] : List ℤ)) [] ["far", "near"]
    [[3, 4], [1, 0]] 1 1 (by decide) (by decide) (by decide) (by decide)
    (by decide) (by decide)

/-- Claim C10: on a well-formed store of `n` chunks, `semantic_search`
returns `some` list (never an out-of-range indexing failure) of exactly
`min top_k n` chunks; a `top_k` larger than the store returns all `n`. -/
theorem semantic_search_result_length {K α : Type} [LinearOrderedCommRing K]
    (encode : List Char → List K) (q : List Char) (chunks : List α)
    (embs : List (List K)) (top_k : Nat)
    (hlen : chunks.length = embs.length) :
    ∃ l, semantic_search encode q chunks embs top_k = some l ∧
      l.length = min top_k chunks.length := by
  have hbound : ∀ j ∈ (argsort (embs.map (fun e => sqDist e (encode q)))).take top_k,
      j < chunks.length := by
    intro j hj
    have hmem := List.mem_of_mem_take hj
    have := (mem_argsort _ j).mp hmem
    rw [List.length_map] at this
    omega
  obtain ⟨l, hl, hlen2⟩ := getChunks_of_bounded chunks _ hbound
  refine ⟨l, hl, ?_⟩
  rw [hlen2, List.length_take, argsort_length, List.length_map, hlen]

theorem semantic_search_result_length_witness :
    (["a", "b"] : List String).length = ([[1], [0]] : List (List ℤ)).length ∧
      ∃ l, semantic_search (fun _ => ([0] : List ℤ)) [] ["a", "b"] [[1], [0]] 5
          = some l ∧ l.length = min 5 (["a", "b"] : List String).length :=
  ⟨rfl, semantic_search_result_length (fun _ => ([0] : List ℤ)) [] ["a", "b"]
    [[1], [0]] 5 rfl⟩

/-! ## Vector store initializer (`initialize_vector_db`, app.py lines 142-159)

`load_file` returns the file content, or `""` when the file is missing or
unreadable (it catches its own exceptions), so the transcript parameter
covers all three situations.  The external `embed_model.encode` may throw;
it is a parameter returning `Except`.  The `try/except` of the Python code
becomes the `match` on the first attempt; note that the `except` branch
itself calls `encode` again, so `initialize_vector_db` itself can only end
in `.error` if that second call also throws (in Python: the exception
escapes and no assignment of `embeddings` happens). -/

/-- The global store `(chunks, embeddings)` of app.py. -/
structure VectorStore (V : Type) where
  chunks : List (List Char)
  embeddings : List V

/-- The placeholder chunk used when the transcript is empty or missing. -/
def sampleInit : List Char := "Sample content for initialization".toList

/-- The placeholder chunk used when building the store throws. -/
def sampleError : List Char := "Sample content for error case".toList

/-- `initialize_vector_db()` from app.py. -/
def initialize_vector_db {E V : Type} (transcript : List Char)
    (encode : List (List Char) → Except E (List V)) :
    Except E (VectorStore V) :=
  let attempt : Except E (VectorStore V) :=
    if transcript ≠ [] then
      match encode (chunk_text transcript 500) with
      | .ok es => .ok ⟨chunk_text transcript 500, es⟩
      | .error e => .error e
    else
      match encode [sampleInit] with
      | .ok es => .ok ⟨[sampleInit], es⟩
      | .error e => .error e
  match attempt with
  | .ok st => .ok st
  | .error _ =>
    match encode [sampleError] with
    | .ok es => .ok ⟨[sampleError], es⟩
    | .error e => .error e

/-- Claim C6: whenever `initialize_vector_db` returns (normally), the store
satisfies `len(embeddings) == len(chunks)` with both non-empty — for a
loaded file, an empty or missing file, and for a throwing step alike.  The
hypothesis states the contract of `SentenceTransformer.encode`: one
embedding per input chunk. -/
theorem initialize_vector_db_invariant {E V : Type} (transcript : List Char)
    (encode : List (List Char) → Except E (List V))
    (henc : ∀ cs es, encode cs = .ok es → es.length = cs.length) :
    ∀ st, initialize_vector_db transcript encode = .ok st →
      st.embeddings.length = st.chunks.length ∧
        st.chunks ≠ [] ∧ st.embeddings ≠ [] := by
  intro st hst
  have hmain : st.embeddings.length = st.chunks.length ∧ st.chunks ≠ [] := by
    unfold initialize_vector_db at hst
    by_cases htr : transcript ≠ []
    · rw [if_pos htr] at hst
      rcases h1 : encode (chunk_text transcript 500) with e | es
      · rw [h1] at hst
        rcases h2 : encode [sampleError] with e2 | es2
        · rw [h2] at hst
          exact absurd hst (by simp)
        · rw [h2] at hst
          have := henc _ _ h2
          simp only [Except.ok.injEq] at hst
          subst hst
          exact ⟨this, by simp⟩
      · rw [h1] at hst
        have := henc _ _ h1
        simp only [Except.ok.injEq] at hst
        subst hst
        exact ⟨this, chunk_text_ne_nil _ _⟩
    · rw [if_neg htr] at hst
      rcases h1 : encode [sampleInit] with e | es
      · rw [h1] at hst
        rcases h2 : encode [sampleError] with e2 | es2
        · rw [h2] at hst
          exact absurd hst (by simp)
        · rw [h2] at hst
          have := henc _ _ h2
          simp only [Except.ok.injEq] at hst
          subst hst
          exact ⟨this, by simp⟩
      · rw [h1] at hst
        have := henc _ _ h1
        simp only [Except.ok.injEq] at hst
        subst hst
        exact ⟨this, by simp⟩
  refine ⟨hmain.1, hmain.2, ?_⟩
  intro hemb
  apply hmain.2
  have := hmain.1
  rw [hemb] at this
  simp at this
  exact List.length_eq_zero.mp this.symm

theorem initialize_vector_db_invariant_witness :
    (VectorStore.mk [sampleInit] [(0 : ℤ)]).embeddings.length
        = (VectorStore.mk [sampleInit] [(0 : ℤ)]).chunks.length ∧
      (VectorStore.mk [sampleInit] [(0 : ℤ)]).chunks ≠ [] ∧
      (VectorStore.mk [sampleInit] [(0 : ℤ)]).embeddings ≠ [] :=
  initialize_vector_db_invariant []
    (fun cs => (Except.ok (cs.map (fun _ => (0 : ℤ))) : Except Unit (List ℤ)))
    (fun cs es h => by
      simp only [Except.ok.injEq] at h
      rw [← h, List.length_map])
    (VectorStore.mk [sampleInit] [(0 : ℤ)]) rfl

/-! ## Question generation (`generate_questions`, app.py lines 82-109)

The Gemini call (`genai.GenerativeModel(...).generate_content` followed by
`.text`) is the opaque fallible parameter `genCall`. -/

/-- The fixed prompt of `generate_questions`, `"\n".join(prompt_parts)`. -/
def full_prompt (retrieved_content co_text bloom_level : List Char) : List Char :=
  List.intercalate ['\n']
    ["You are a Question Generator Agent.".toList,
     "Course Outcome (CO): ".toList ++ co_text,
     "Bloom's Taxonomy Level: ".toList ++ bloom_level,
     "Based on the content below, generate multiple questions:".toList,
     "- Two Objective Type Questions".toList,
     "- Two Short Answer Type Questions".toList,
     "Content:\n".toList ++ retrieved_content,
     "\nOnly output the questions in the following format:".toList,
     "Objective Questions:".toList,
     "1. <question 1>".toList,
     "2. <question 2>".toList,
     "Short Answer Questions:".toList,
     "1. <question 1>".toList,
     "2. <question 2>".toList]

/-- The sentinel string returned when the external generation call fails. -/
def errorSentinel : List Char :=
  "Error generating questions. Please check logs.".toList

/-- `generate_questions(retrieved_content, co_text, bloom_level)` from
app.py: on success the reply is stripped, on any failure of the external
call the sentinel is returned (the exception is swallowed). -/
def generate_questions {E : Type} (genCall : List Char → Except E (List Char))
    (retrieved_content co_text bloom_level : List Char) : List Char :=
  match genCall (full_prompt retrieved_content co_text bloom_level) with
  | .ok output => pyStrip output
  | .error _ => errorSentinel

/-- Claim C9: whenever the external generation call fails, the function
returns the fixed sentinel string; being a total function it propagates no
exception to its caller. -/
theorem generate_questions_error_sentinel {E : Type}
    (genCall : List Char → Except E (List Char))
    (retrieved_content co_text bloom_level : List Char) (e : E)
    (hfail : genCall (full_prompt retrieved_content co_text bloom_level)
      = .error e) :
    generate_questions genCall retrieved_content co_text bloom_level
      = errorSentinel := by
  unfold generate_questions
  rw [hfail]

theorem generate_questions_error_sentinel_witness :
    generate_questions (fun _ => .error ()) [] [] [] = errorSentinel :=
  generate_questions_error_sentinel (fun _ => .error ()) [] [] [] () rfl

/-! ## Parser (`parse_questions`, app.py lines 112-139) -/

/-- The literal marker `"Objective Questions:"`. -/
def markerObj : List Char := "Objective Questions:".toList

/-- The literal marker `"Short Answer Questions:"`. -/
def markerShort : List Char := "Short Answer Questions:".toList

/-- `text.split(sep)` of Python, restricted to what the code consumes: the
part before the first occurrence of `sep`, and the remainder after that
occurrence (the whole text, with remainder `[]`, when `sep` is absent). -/
def splitFirst (sep : List Char) : List Char → List Char × List Char
  | [] => ([], [])
  | c :: rest =>
    if sep <+: (c :: rest) then ([], (c :: rest).drop sep.length)
    else (c :: (splitFirst sep rest).1, (splitFirst sep rest).2)

/-- First occurrence of `sep`: `none` when absent, otherwise the text before
and the text after the occurrence. -/
def findSep (sep : List Char) : List Char → Option (List Char × List Char)
  | [] => none
  | c :: rest =>
    if sep <+: (c :: rest) then some ([], (c :: rest).drop sep.length)
    else (findSep sep rest).map (fun p => (c :: p.1, p.2))

/-- Python `str.replace(sep, "")`: remove every occurrence, scanning left to
right; the fuel is an upper bound on the number of occurrences. -/
def removeAll (sep : List Char) : Nat → List Char → List Char
  | 0, l => l
  | fuel + 1, l =>
    match findSep sep l with
    | none => l
    | some (a, b) => a ++ removeAll sep fuel b

/-- Python `str.split("\n")`. -/
def splitNl : List Char → List Char → List (List Char)
  | acc, [] => [acc.reverse]
  | acc, c :: rest =>
    if c = '\n' then acc.reverse :: splitNl [] rest
    else splitNl (c :: acc) rest

/-- Position of the first occurrence of `". "`, Python `question.find(". ")`
(the parser only consults it when the occurrence exists). -/
def findDotSpace : List Char → Option Nat
  | [] => none
  | c :: rest =>
    if ['.', ' '] <+: (c :: rest) then some 0
    else (findDotSpace rest).map (fun i => i + 1)

/-- The number-prefix stripping of `parse_questions`: when `". "` occurs
among the first three characters, drop everything up to and including the
first `". "`. -/
def stripNumbering (question : List Char) : List Char :=
  if ['.', ' '] <:+: question.take 3 then
    match findDotSpace question with
    | some i => question.drop (i + 2)
    | none => question
  else question

/-- The per-line treatment of `parse_questions`: keep a stripped line when
it is non-blank and one of its first two characters is a digit. -/
def processLine (line : List Char) : Option (List Char) :=
  if pyStrip line ≠ [] ∧ (line.take 2).any Char.isDigit then
    some (stripNumbering (pyStrip line))
  else none

/-- `parse_questions(questions_text)` from app.py, as the pair
`(objective_questions, subjective_questions)`. -/
def parse_questions (questions_text : List Char) :
    List (List Char) × List (List Char) :=
  if markerObj <:+: questions_text ∧ markerShort <:+: questions_text then
    ((splitNl [] (pyStrip (removeAll markerObj
        (splitFirst markerShort questions_text).1.length
        (splitFirst markerShort questions_text).1))).filterMap processLine,
     (splitNl [] (pyStrip
        ((splitFirst markerShort
          (splitFirst markerShort questions_text).2).1))).filterMap processLine)
  else ([], [])

example :
    parse_questions
      "Objective Questions:\n1. Q one\n2. Q two\nShort Answer Questions:\n1. Q three\n2. Q four".toList
      = (["Q one".toList, "Q two".toList], ["Q three".toList, "Q four".toList]) := by
  decide
example : parse_questions "no markers here".toList = ([], []) := by decide
example :
    parse_questions "Objective Questions:\n1. Q one".toList = ([], []) := by
  decide

/-! ## The canonical reply shape of the prompt -/

/-- A numbered line `"<d>. <question>"`. -/
def qline (d : Char) (q : List Char) : List Char := d :: '.' :: ' ' :: q

/-- A reply in exactly the format the prompt requests: both markers, each
followed by two numbered lines. -/
def replyText (q1 q2 q3 q4 : List Char) : List Char :=
  markerObj ++ ['\n'] ++ qline '1' q1 ++ ['\n'] ++ qline '2' q2 ++ ['\n'] ++
    markerShort ++ ['\n'] ++ qline '1' q3 ++ ['\n'] ++ qline '2' q4

/-- A well-formed question body: non-empty, no newline, not starting or
ending with whitespace, and not containing either marker. -/
def tidy (q : List Char) : Prop :=
  q ≠ [] ∧ (q.headD 'a').isWhitespace = false ∧
    (q.getLastD 'a').isWhitespace = false ∧ '\n' ∉ q ∧
    ¬ markerObj <:+: q ∧ ¬ markerShort <:+: q

/-! ## Occurrence lemmas for the parser -/

/-- An occurrence of a newline-free `sep` inside `X ++ '\n' :: Y` lies
entirely within `X` or entirely within `Y`. -/
lemma infix_split_nl {sep X Y : List Char} (hnl : '\n' ∉ sep)
    (h : sep <:+: X ++ '\n' :: Y) : sep <:+: X ∨ sep <:+: Y := by
  obtain ⟨a, b, hab⟩ := h
  rw [List.append_assoc] at hab
  by_cases hlong : X.length + 1 ≤ a.length
  · right
    have hapre : a <+: X ++ '\n' :: Y := ⟨sep ++ b, hab⟩
    have hXpre : X ++ ['\n'] <+: X ++ '\n' :: Y := by
      refine ⟨Y, ?_⟩
      simp
    have hXa : X ++ ['\n'] <+: a := by
      refine List.prefix_of_prefix_length_le hXpre hapre ?_
      simp only [List.length_append, List.length_cons, List.length_nil]
      omega
    obtain ⟨a2, ha2⟩ := hXa
    rw [← ha2, List.append_assoc, List.append_assoc] at hab
    have hcancel := List.append_cancel_left hab
    simp only [List.singleton_append, List.cons.injEq, true_and] at hcancel
    exact ⟨a2, b, by rw [List.append_assoc]; exact hcancel⟩
  · by_cases hshort : a.length + sep.length ≤ X.length
    · left
      have hpre : a ++ sep <+: X ++ '\n' :: Y := by
        refine ⟨b, ?_⟩
        rw [List.append_assoc]
        exact hab
      have hXpre : X <+: X ++ '\n' :: Y := List.prefix_append _ _
      have hasX : a ++ sep <+: X := by
        refine List.prefix_of_prefix_length_le hpre hXpre ?_
        simp only [List.length_append]
        omega
      obtain ⟨x2, hx2⟩ := hasX
      exact ⟨a, x2, hx2⟩
    · exfalso
      have e1 : (X ++ '\n' :: Y)[X.length]? = some '\n' := by
        rw [List.getElem?_append_right (Nat.le_refl _)]
        simp
      have e2 : (a ++ (sep ++ b))[X.length]? = sep[X.length - a.length]? := by
        rw [List.getElem?_append_right (by omega)]
        exact List.getElem?_append_left (by omega)
      rw [← hab, e2] at e1
      exact hnl (List.getElem?_mem e1)

/-- If `sep` starts with a character different from `c`, an occurrence of
`sep` in `c :: l` is an occurrence in `l`. -/
lemma infix_cons_elim {sep : List Char} {c h0 : Char} {l : List Char}
    (hh : sep.head? = some h0) (hne : h0 ≠ c) (h : sep <:+: c :: l) :
    sep <:+: l := by
  rcases List.infix_cons_iff.mp h with h | h
  · exfalso
    obtain ⟨t, ht⟩ := h
    cases sep with
    | nil => simp at hh
    | cons s0 stail =>
      simp only [List.head?_cons, Option.some.injEq] at hh
      rw [List.cons_append] at ht
      have := List.head_eq_of_cons_eq ht
      exact hne (by rw [← hh, this])
  · exact h

/-- `sep` does not occur in a numbered line `"<d>. <q>"` when its head
character differs from `d`, `'.'` and `' '` and it does not occur in `q`. -/
lemma not_infix_qline {sep q : List Char} {d h0 : Char}
    (hh : sep.head? = some h0) (hd : h0 ≠ d) (hdot : h0 ≠ '.')
    (hsp : h0 ≠ ' ') (hq : ¬ sep <:+: q) : ¬ sep <:+: qline d q := by
  intro h
  exact hq (infix_cons_elim hh hsp
    (infix_cons_elim hh hdot (infix_cons_elim hh hd h)))

/-! ## Behaviour of `splitFirst`, `findSep` and `removeAll` -/

lemma infix_of_infix_tail {sep : List Char} {c : Char} {rest : List Char}
    (h : sep <:+: rest) : sep <:+: c :: rest := by
  obtain ⟨s, t, hst⟩ := h
  refine ⟨c :: s, t, ?_⟩
  have hshape : (c :: s) ++ sep ++ t = c :: (s ++ sep ++ t) := by simp
  rw [hshape, hst]

lemma infix_of_leading {sep l : List Char} (h : sep <+: l) : sep <:+: l := by
  obtain ⟨t, ht⟩ := h
  exact ⟨[], t, by simpa using ht⟩

lemma splitFirst_of_no_occ {sep : List Char} :
    ∀ {l : List Char}, ¬ sep <:+: l → splitFirst sep l = (l, [])
  | [], _ => rfl
  | c :: rest, h => by
    unfold splitFirst
    rw [if_neg (fun hp => h (infix_of_leading hp)),
      splitFirst_of_no_occ (fun hi => h (infix_of_infix_tail hi))]

/-- When the first occurrence of `sep` is the explicit one, `splitFirst`
returns the parts around it.  The hypothesis says no occurrence starts
earlier (an occurrence starting inside `A` would lie inside
`A ++ sep.dropLast`). -/
lemma splitFirst_append (sep : List Char) (hsep : sep ≠ []) :
    ∀ (A B : List Char), ¬ sep <:+: (A ++ sep.dropLast) →
      splitFirst sep (A ++ sep ++ B) = (A, B)
  | [], B, _ => by
    obtain ⟨s0, stail, rfl⟩ := List.exists_cons_of_ne_nil hsep
    have hform : ([] : List Char) ++ (s0 :: stail) ++ B
        = s0 :: (stail ++ B) := by simp
    rw [hform]
    unfold splitFirst
    rw [if_pos (by rw [← List.cons_append]; exact List.prefix_append _ _)]
    simp only [Prod.mk.injEq, true_and]
    rw [List.length_cons, List.drop_succ_cons]
    exact List.drop_left' rfl
  | a :: A, B, hocc => by
    have hform : (a :: A) ++ sep ++ B = a :: (A ++ sep ++ B) := by simp
    rw [hform]
    have hcond : ¬ sep <+: a :: (A ++ sep ++ B) := by
      intro hpre
      apply hocc
      have hdp : sep.dropLast <+: sep := List.dropLast_prefix sep
      obtain ⟨tl, htl⟩ := hdp
      have hbig : (a :: A) ++ sep.dropLast <+: a :: (A ++ sep ++ B) := by
        refine ⟨tl ++ B, ?_⟩
        rw [List.append_assoc, List.append_assoc, ← List.append_assoc sep.dropLast,
          htl]
        simp
      have hlen : sep.length ≤ ((a :: A) ++ sep.dropLast).length := by
        have : sep.length = sep.dropLast.length + 1 := by
          rw [List.length_dropLast]
          have := List.length_pos.mpr hsep
          omega
        simp only [List.length_append, List.length_cons]
        omega
      have := List.prefix_of_prefix_length_le hpre (by
        rw [← hform] at hbig
        rw [← hform]
        exact hbig) hlen
      exact infix_of_leading this
    unfold splitFirst
    rw [if_neg hcond]
    have hrec := splitFirst_append sep hsep A B
      (fun hi => hocc (infix_of_infix_tail hi))
    rw [hrec]

lemma findSep_none {sep : List Char} :
    ∀ {l : List Char}, ¬ sep <:+: l → findSep sep l = none
  | [], _ => rfl
  | c :: rest, h => by
    unfold findSep
    rw [if_neg (fun hp => h (infix_of_leading hp)),
      findSep_none (fun hi => h (infix_of_infix_tail hi))]
    rfl

lemma findSep_at_head (c : Char) (sep' X : List Char) :
    findSep (c :: sep') ((c :: sep') ++ X) = some ([], X) := by
  have hform : (c :: sep') ++ X = c :: (sep' ++ X) := by simp
  rw [hform]
  unfold findSep
  rw [if_pos (by rw [← List.cons_append]; exact List.prefix_append _ _)]
  simp only [Option.some.injEq, Prod.mk.injEq, true_and]
  rw [List.length_cons, List.drop_succ_cons]
  exact List.drop_left' rfl

lemma removeAll_of_none {sep l : List Char} (h : findSep sep l = none) :
    ∀ fuel, removeAll sep fuel l = l
  | 0 => rfl
  | fuel + 1 => by
    unfold removeAll
    rw [h]

/-- Removing `sep` from `sep ++ X` when `sep` does not occur in `X` yields
`X`. -/
lemma removeAll_marker {sep X : List Char} (hsep : sep ≠ [])
    (hX : ¬ sep <:+: X) :
    ∀ fuel, 0 < fuel → removeAll sep fuel (sep ++ X) = X := by
  intro fuel hf
  obtain ⟨f, rfl⟩ : ∃ f, fuel = f + 1 := ⟨fuel - 1, by omega⟩
  obtain ⟨c, sep', rfl⟩ := List.exists_cons_of_ne_nil hsep
  unfold removeAll
  rw [findSep_at_head]
  show [] ++ removeAll (c :: sep') f X = X
  rw [removeAll_of_none (findSep_none hX) f, List.nil_append]

/-! ## Behaviour of `pyStrip` and `splitNl` on the reply shape -/

lemma dropWhile_ws_eq_self {l : List Char}
    (h : ∀ c, l.head? = some c → c.isWhitespace = false) :
    l.dropWhile Char.isWhitespace = l := by
  cases l with
  | nil => rfl
  | cons c t => exact dropWhile_ws_cons_false (h c rfl) t

lemma pyStrip_eq_self {l : List Char}
    (hh : ∀ c, l.head? = some c → c.isWhitespace = false)
    (hl : ∀ c, l.getLast? = some c → c.isWhitespace = false) :
    pyStrip l = l := by
  unfold pyStrip
  rw [dropWhile_ws_eq_self hh, dropWhile_ws_eq_self ?_, List.reverse_reverse]
  intro c hc
  rw [List.head?_reverse] at hc
  exact hl c hc

lemma pyStrip_cons_ws {c : Char} (hc : c.isWhitespace = true) (l : List Char) :
    pyStrip (c :: l) = pyStrip l := by
  unfold pyStrip
  rw [dropWhile_ws_cons_true hc]

lemma pyStrip_append_ws {c : Char} (hc : c.isWhitespace = true) (l : List Char) :
    pyStrip (l ++ [c]) = pyStrip l := by
  unfold pyStrip
  rw [List.dropWhile_append]
  by_cases h : (l.dropWhile Char.isWhitespace).isEmpty
  · rw [if_pos h]
    rw [List.isEmpty_iff] at h
    rw [h, dropWhile_ws_cons_true hc]
    simp
  · rw [if_neg h, List.reverse_append]
    have hrev : ([c] : List Char).reverse = [c] := rfl
    rw [hrev, List.singleton_append, dropWhile_ws_cons_true hc]

lemma splitNl_nil (acc : List Char) : splitNl acc [] = [acc.reverse] := rfl

lemma splitNl_cons (acc : List Char) (c : Char) (rest : List Char) :
    splitNl acc (c :: rest) =
      if c = '\n' then acc.reverse :: splitNl [] rest
      else splitNl (c :: acc) rest := rfl

lemma splitNl_no_nl : ∀ (acc a : List Char), '\n' ∉ a →
    splitNl acc a = [acc.reverse ++ a]
  | acc, [], _ => by simp [splitNl_nil]
  | acc, c :: a, h => by
    rw [splitNl_cons,
      if_neg (fun hc => h (by rw [hc]; exact List.mem_cons_self _ _)),
      splitNl_no_nl (c :: acc) a (fun hm => h (List.mem_cons_of_mem _ hm))]
    simp

lemma splitNl_append_nl : ∀ (acc a b : List Char), '\n' ∉ a →
    splitNl acc (a ++ '\n' :: b) = (acc.reverse ++ a) :: splitNl [] b
  | acc, [], b, _ => by
    simp only [List.nil_append]
    rw [splitNl_cons, if_pos rfl]
    simp
  | acc, c :: a, b, h => by
    simp only [List.cons_append]
    rw [splitNl_cons,
      if_neg (fun hc => h (by rw [hc]; exact List.mem_cons_self _ _)),
      splitNl_append_nl (c :: acc) a b (fun hm => h (List.mem_cons_of_mem _ hm))]
    simp

/-! ## The per-line processing on numbered lines -/

lemma tidy_head_ws {q : List Char} (ht : tidy q) :
    ∀ c, q.head? = some c → c.isWhitespace = false := by
  intro c hc
  obtain ⟨hne, hh, -⟩ := ht
  cases q with
  | nil => simp at hc
  | cons x t =>
    simp only [List.head?_cons, Option.some.injEq] at hc
    subst hc
    simpa using hh

lemma tidy_last_ws {q : List Char} (ht : tidy q) :
    ∀ c, q.getLast? = some c → c.isWhitespace = false := by
  intro c hc
  obtain ⟨hne, -, hl, -⟩ := ht
  have hgd : q.getLastD 'a' = c := by
    rw [List.getLastD_eq_getLast?, hc]
    rfl
  rw [hgd] at hl
  exact hl

lemma qline_getLast {d : Char} {q : List Char} (hq : q ≠ []) :
    (qline d q).getLast? = q.getLast? := by
  show (([d, '.', ' '] : List Char) ++ q).getLast? = q.getLast?
  exact List.getLast?_append_of_ne_nil _ hq

/-- On a well-formed numbered line, the parser keeps the line and strips
exactly the `"<d>. "` prefix. -/
lemma processLine_qline {d : Char} {q : List Char} (hd : d.isDigit = true)
    (hdw : d.isWhitespace = false) (ht : tidy q) :
    processLine (qline d q) = some q := by
  have hstrip : pyStrip (qline d q) = qline d q := by
    refine pyStrip_eq_self ?_ ?_
    · intro c hc
      simp only [qline, List.head?_cons, Option.some.injEq] at hc
      rw [← hc]
      exact hdw
    · intro c hc
      rw [qline_getLast ht.1] at hc
      exact tidy_last_ws ht c hc
  unfold processLine
  rw [if_pos ⟨by rw [hstrip]; simp [qline], by simp [qline, hd]⟩, hstrip]
  unfold stripNumbering
  rw [if_pos (by
    have htake : (qline d q).take 3 = [d, '.', ' '] := by simp [qline]
    rw [htake]
    exact ⟨[d], [], rfl⟩)]
  have hfind : findDotSpace (qline d q) = some 1 := by
    unfold qline findDotSpace
    rw [if_neg (fun hp => by
      obtain ⟨t, hpt⟩ := hp
      have := List.head_eq_of_cons_eq hpt
      rw [← this] at hd
      exact absurd hd (by decide))]
    unfold findDotSpace
    rw [if_pos ⟨q, rfl⟩]
    rfl
  rw [hfind]
  show some ((qline d q).drop (1 + 2)) = some q
  simp [qline]

/-! ## Claims C7 and C8 about `parse_questions` -/

/-- Claim C7: whenever at least one of the two literal markers is absent
from the reply, `parse_questions` returns two empty sequences (and, being a
total function, surfaces no error). -/
theorem parse_questions_missing_marker (t : List Char)
    (h : ¬ markerObj <:+: t ∨ ¬ markerShort <:+: t) :
    parse_questions t = ([], []) := by
  unfold parse_questions
  rw [if_neg (fun hand => h.elim (fun h1 => h1 hand.1) (fun h2 => h2 hand.2))]

theorem parse_questions_missing_marker_witness :
    (¬ markerObj <:+: "hello".toList ∨ ¬ markerShort <:+: "hello".toList) ∧
      parse_questions "hello".toList = ([], []) :=
  ⟨Or.inl (by decide),
    parse_questions_missing_marker "hello".toList (Or.inl (by decide))⟩

/-- Claim C8: on a reply containing both markers, each followed by exactly
two numbered lines `"<n>. <question>"`, the parser returns exactly the two
objective and the two subjective question bodies, with the number prefixes
stripped. -/
theorem parse_questions_two_by_two (q1 q2 q3 q4 : List Char)
    (ht1 : tidy q1) (ht2 : tidy q2) (ht3 : tidy q3) (ht4 : tidy q4) :
    parse_questions (replyText q1 q2 q3 q4) = ([q1, q2], [q3, q4]) := by
  have hq1nl : '\n' ∉ qline '1' q1 := by
    simp only [qline, List.mem_cons]
    push_neg
    exact ⟨by decide, by decide, by decide, ht1.2.2.2.1⟩
  have hq2nl : '\n' ∉ qline '2' q2 := by
    simp only [qline, List.mem_cons]
    push_neg
    exact ⟨by decide, by decide, by decide, ht2.2.2.2.1⟩
  have hq3nl : '\n' ∉ qline '1' q3 := by
    simp only [qline, List.mem_cons]
    push_neg
    exact ⟨by decide, by decide, by decide, ht3.2.2.2.1⟩
  have hq4nl : '\n' ∉ qline '2' q4 := by
    simp only [qline, List.mem_cons]
    push_neg
    exact ⟨by decide, by decide, by decide, ht4.2.2.2.1⟩
  have hinfObj : markerObj <:+: replyText q1 q2 q3 q4 :=
    infix_of_leading ⟨['\n'] ++ qline '1' q1 ++ ['\n'] ++ qline '2' q2 ++
      ['\n'] ++ markerShort ++ ['\n'] ++ qline '1' q3 ++ ['\n'] ++
      qline '2' q4, by simp [replyText, List.append_assoc]⟩
  have hinfShort : markerShort <:+: replyText q1 q2 q3 q4 :=
    ⟨markerObj ++ ['\n'] ++ qline '1' q1 ++ ['\n'] ++ qline '2' q2 ++ ['\n'],
     ['\n'] ++ qline '1' q3 ++ ['\n'] ++ qline '2' q4,
     by simp [replyText, List.append_assoc]⟩
  have hoccA : ¬ markerShort <:+:
      ((markerObj ++ ['\n'] ++ qline '1' q1 ++ ['\n'] ++ qline '2' q2 ++
        ['\n']) ++ markerShort.dropLast) := by
    intro h
    have hre : (markerObj ++ ['\n'] ++ qline '1' q1 ++ ['\n'] ++
        qline '2' q2 ++ ['\n']) ++ markerShort.dropLast
        = markerObj ++ '\n' :: (qline '1' q1 ++ '\n' ::
          (qline '2' q2 ++ '\n' :: markerShort.dropLast)) := by
      simp [List.append_assoc]
    rw [hre] at h
    rcases infix_split_nl (by decide) h with h | h
    · exact (by decide : ¬ markerShort <:+: markerObj) h
    rcases infix_split_nl (by decide) h with h | h
    · exact not_infix_qline (show markerShort.head? = some 'S' by decide)
        (by decide) (by decide) (by decide) ht1.2.2.2.2.2 h
    rcases infix_split_nl (by decide) h with h | h
    · exact not_infix_qline (show markerShort.head? = some 'S' by decide)
        (by decide) (by decide) (by decide) ht2.2.2.2.2.2 h
    · exact (by decide : ¬ markerShort <:+: markerShort.dropLast) h
  have hform1 : replyText q1 q2 q3 q4
      = (markerObj ++ ['\n'] ++ qline '1' q1 ++ ['\n'] ++ qline '2' q2 ++
        ['\n']) ++ markerShort ++
        (['\n'] ++ qline '1' q3 ++ ['\n'] ++ qline '2' q4) := by
    simp [replyText, List.append_assoc]
  have hsplit1 : splitFirst markerShort (replyText q1 q2 q3 q4)
      = (markerObj ++ ['\n'] ++ qline '1' q1 ++ ['\n'] ++ qline '2' q2 ++
         ['\n'],
         ['\n'] ++ qline '1' q3 ++ ['\n'] ++ qline '2' q4) := by
    rw [hform1]
    exact splitFirst_append markerShort (by decide) _ _ hoccA
  have hoccB : ¬ markerShort <:+:
      (['\n'] ++ qline '1' q3 ++ ['\n'] ++ qline '2' q4) := by
    intro h
    have hre : (['\n'] : List Char) ++ qline '1' q3 ++ ['\n'] ++ qline '2' q4
        = ([] : List Char) ++ '\n' :: (qline '1' q3 ++ '\n' :: qline '2' q4) := by
      simp [List.append_assoc]
    rw [hre] at h
    rcases infix_split_nl (by decide) h with h | h
    · rw [List.infix_nil] at h
      exact (by decide : markerShort ≠ []) h
    rcases infix_split_nl (by decide) h with h | h
    · exact not_infix_qline (show markerShort.head? = some 'S' by decide)
        (by decide) (by decide) (by decide) ht3.2.2.2.2.2 h
    · exact not_infix_qline (show markerShort.head? = some 'S' by decide)
        (by decide) (by decide) (by decide) ht4.2.2.2.2.2 h
  have hsplit2 : splitFirst markerShort
      (['\n'] ++ qline '1' q3 ++ ['\n'] ++ qline '2' q4)
      = (['\n'] ++ qline '1' q3 ++ ['\n'] ++ qline '2' q4, []) :=
    splitFirst_of_no_occ hoccB
  have hoccObj : ¬ markerObj <:+:
      (['\n'] ++ qline '1' q1 ++ ['\n'] ++ qline '2' q2 ++ ['\n']) := by
    intro h
    have hre : (['\n'] : List Char) ++ qline '1' q1 ++ ['\n'] ++
        qline '2' q2 ++ ['\n']
        = ([] : List Char) ++ '\n' :: (qline '1' q1 ++ '\n' ::
          (qline '2' q2 ++ '\n' :: ([] : List Char))) := by
      simp [List.append_assoc]
    rw [hre] at h
    rcases infix_split_nl (by decide) h with h | h
    · rw [List.infix_nil] at h
      exact (by decide : markerObj ≠ []) h
    rcases infix_split_nl (by decide) h with h | h
    · exact not_infix_qline (show markerObj.head? = some 'O' by decide)
        (by decide) (by decide) (by decide) ht1.2.2.2.2.1 h
    rcases infix_split_nl (by decide) h with h | h
    · exact not_infix_qline (show markerObj.head? = some 'O' by decide)
        (by decide) (by decide) (by decide) ht2.2.2.2.2.1 h
    · rw [List.infix_nil] at h
      exact (by decide : markerObj ≠ []) h
  have hremove : removeAll markerObj
      (markerObj ++ ['\n'] ++ qline '1' q1 ++ ['\n'] ++ qline '2' q2 ++
        ['\n']).length
      (markerObj ++ ['\n'] ++ qline '1' q1 ++ ['\n'] ++ qline '2' q2 ++
        ['\n'])
      = ['\n'] ++ qline '1' q1 ++ ['\n'] ++ qline '2' q2 ++ ['\n'] := by
    have hre : markerObj ++ ['\n'] ++ qline '1' q1 ++ ['\n'] ++
        qline '2' q2 ++ ['\n']
        = markerObj ++ (['\n'] ++ qline '1' q1 ++ ['\n'] ++ qline '2' q2 ++
          ['\n']) := by
      simp [List.append_assoc]
    rw [hre]
    refine removeAll_marker (by decide) hoccObj _ ?_
    have hm : 0 < markerObj.length := by decide
    simp only [List.length_append]
    omega
  have hstripObj : pyStrip
      (['\n'] ++ qline '1' q1 ++ ['\n'] ++ qline '2' q2 ++ ['\n'])
      = qline '1' q1 ++ '\n' :: qline '2' q2 := by
    have hre : (['\n'] : List Char) ++ qline '1' q1 ++ ['\n'] ++
        qline '2' q2 ++ ['\n']
        = '\n' :: ((qline '1' q1 ++ '\n' :: qline '2' q2) ++ ['\n']) := by
      simp [List.append_assoc]
    rw [hre, pyStrip_cons_ws (by decide), pyStrip_append_ws (by decide)]
    refine pyStrip_eq_self ?_ ?_
    · intro c hc
      simp only [qline, List.cons_append, List.head?_cons,
        Option.some.injEq] at hc
      rw [← hc]
      decide
    · intro c hc
      rw [List.getLast?_append_of_ne_nil _
        (by simp : ('\n' :: qline '2' q2) ≠ [])] at hc
      have hmid : ('\n' :: qline '2' q2).getLast? = (qline '2' q2).getLast? := by
        show ((['\n'] : List Char) ++ qline '2' q2).getLast? = _
        exact List.getLast?_append_of_ne_nil _ (by simp [qline])
      rw [hmid, qline_getLast ht2.1] at hc
      exact tidy_last_ws ht2 c hc
  have hstripSubj : pyStrip
      (['\n'] ++ qline '1' q3 ++ ['\n'] ++ qline '2' q4)
      = qline '1' q3 ++ '\n' :: qline '2' q4 := by
    have hre : (['\n'] : List Char) ++ qline '1' q3 ++ ['\n'] ++ qline '2' q4
        = '\n' :: (qline '1' q3 ++ '\n' :: qline '2' q4) := by
      simp [List.append_assoc]
    rw [hre, pyStrip_cons_ws (by decide)]
    refine pyStrip_eq_self ?_ ?_
    · intro c hc
      simp only [qline, List.cons_append, List.head?_cons,
        Option.some.injEq] at hc
      rw [← hc]
      decide
    · intro c hc
      rw [List.getLast?_append_of_ne_nil _
        (by simp : ('\n' :: qline '2' q4) ≠ [])] at hc
      have hmid : ('\n' :: qline '2' q4).getLast? = (qline '2' q4).getLast? := by
        show ((['\n'] : List Char) ++ qline '2' q4).getLast? = _
        exact List.getLast?_append_of_ne_nil _ (by simp [qline])
      rw [hmid, qline_getLast ht4.1] at hc
      exact tidy_last_ws ht4 c hc
  have hlines1 : splitNl [] (qline '1' q1 ++ '\n' :: qline '2' q2)
      = [qline '1' q1, qline '2' q2] := by
    rw [splitNl_append_nl [] _ _ hq1nl, splitNl_no_nl [] _ hq2nl]
    simp
  have hlines2 : splitNl [] (qline '1' q3 ++ '\n' :: qline '2' q4)
      = [qline '1' q3, qline '2' q4] := by
    rw [splitNl_append_nl [] _ _ hq3nl, splitNl_no_nl [] _ hq4nl]
    simp
  unfold parse_questions
  rw [if_pos ⟨hinfObj, hinfShort⟩]
  simp only [hsplit1]
  rw [hremove, hstripObj]
  simp only [hsplit2]
  rw [hstripSubj, hlines1, hlines2]
  simp only [List.filterMap_cons, List.filterMap_nil,
    processLine_qline (show ('1' : Char).isDigit = true by decide)
      (show ('1' : Char).isWhitespace = false by decide) ht1,
    processLine_qline (show ('2' : Char).isDigit = true by decide)
      (show ('2' : Char).isWhitespace = false by decide) ht2,
    processLine_qline (show ('1' : Char).isDigit = true by decide)
      (show ('1' : Char).isWhitespace = false by decide) ht3,
    processLine_qline (show ('2' : Char).isDigit = true by decide)
      (show ('2' : Char).isWhitespace = false by decide) ht4]

theorem parse_questions_two_by_two_witness :
    (tidy "What is big?".toList ∧ tidy "Why is it big?".toList ∧
      tidy "Define big.".toList ∧ tidy "Discuss size.".toList) ∧
      parse_questions (replyText "What is big?".toList "Why is it big?".toList
        "Define big.".toList "Discuss size.".toList)
        = (["What is big?".toList, "Why is it big?".toList],
           ["Define big.".toList, "Discuss size.".toList]) :=
  ⟨⟨by constructor <;> decide, by constructor <;> decide,
    by constructor <;> decide, by constructor <;> decide⟩,
    parse_questions_two_by_two _ _ _ _
      (by constructor <;> decide) (by constructor <;> decide)
      (by constructor <;> decide) (by constructor <;> decide)⟩
